import Mathlib

/-!
Verification of `neurodsp/timefrequency.py`

Shallow embedding of the module `neurodsp.timefrequency` (phase, amplitude and
instantaneous-frequency estimation of a neural oscillation) and proofs about it.

Modelling conventions:
* A float value that may be NaN is `Option ℚ` (`none` = NaN).  NaN propagation
  of numpy arithmetic (`NaN - x = NaN`, `NaN < 0` is `False`, `np.angle NaN = NaN`)
  is rendered by `Option` plumbing: operations return `none` when an operand is
  `none`, and the comparison guard of the wrap step only fires on defined values,
  exactly as `phadiff[phadiff < 0]` only selects defined negative entries.
* A complex value that may be NaN is `Option (ℚ × ℚ)` (real and imaginary part).
* `np.pi` is an abstract positive constant `piv`, passed as a parameter.
* `math.log(L, 2)` is modelled exactly as `Nat.log2 L` (the floor of the real
  base-2 logarithm); floating-point rounding of the Python `math.log` is out of
  scope of the embedding.
* External collaborators that are not part of this module are abstracted:
  `neurodsp.filt.filter_signal` as a `FilterModel` (same-length filtered output
  plus a kernel, per its contract) and `scipy.signal.hilbert` as a
  `HilbertModel` (an `N`-point transform whose output has length `N` and is
  defined whenever the input is defined).  `np.angle` / `np.abs` are abstract
  per-sample real functions on defined complex values.
* A Python exception is `Except.error` with the exception message.
-/

namespace NeuroDSP

/-- A possibly-NaN real sample. -/
abbrev Val := Option ℚ

/-- A possibly-NaN complex sample, as (real part, imaginary part). -/
abbrev CVal := Option (ℚ × ℚ)

/-- The three filter pass types `_get_filt_passtype` can return. -/
inductive PassType where
  | lowpass
  | highpass
  | bandpass
deriving DecidableEq, Repr

/-- Embedding of `_get_filt_passtype` (timefrequency.py lines 191-206):
`if f_range[0] is None: lowpass; elif f_range[1] is None: highpass;
else: raise ValueError if f_range[0] >= f_range[1] else bandpass`. -/
def get_filt_passtype (f_range : Option ℚ × Option ℚ) : Except String PassType :=
  match f_range.1 with
  | none => .ok .lowpass
  | some low =>
    match f_range.2 with
    | none => .ok .highpass
    | some high =>
      if low ≥ high then
        .error "Second cutoff frequency must be greater than first."
      else
        .ok .bandpass

/-- Abstraction of `scipy.signal.hilbert`, the external analytic-signal
transform.  `run v n` is `scipy.signal.hilbert(v, n)`: the `n`-point transform
of `v` (zero-padded or truncated to `n` points internally).  Its contract,
used downstream: the output has length `n`, and is defined (non-NaN) whenever
the input is fully defined. -/
structure HilbertModel where
  run : List Val → ℕ → List CVal
  len_run : ∀ v n, (run v n).length = n
  defined_run : ∀ v n, (∀ x ∈ v, x.isSome) → ∀ y ∈ run v n, y.isSome

/-- Index of the first non-NaN sample: `np.where(~np.isnan(sig))[0][0]`
(`none` when every sample is NaN, where Python raises an `IndexError`). -/
def firstNonNan : List Val → Option ℕ
  | [] => none
  | none :: xs => (firstNonNan xs).map (· + 1)
  | some _ :: _ => some 0

/-- One past the index of the last non-NaN sample:
`np.where(~np.isnan(sig))[0][-1] + 1`. -/
def lastNonNanSucc (x : List Val) : Option ℕ :=
  (firstNonNan x.reverse).map (fun k => x.length - k)

/-- The core transform applied to the valid slice `sig_nonan`
(timefrequency.py lines 176-182): with `hilbert_increase_n`, an
`n_components = 2**(int(math.log(sig_len, 2)) + 1)`-point transform truncated
back to `sig_len` samples; otherwise the plain transform of the slice. -/
def analyticCore (H : HilbertModel) (sig_nonan : List Val) (increase_n : Bool) :
    List CVal :=
  if increase_n then
    (H.run sig_nonan (2 ^ (Nat.log2 sig_nonan.length + 1))).take sig_nonan.length
  else
    H.run sig_nonan sig_nonan.length

/-- Embedding of `_hilbert_ignore_nan` (timefrequency.py lines 168-188):
locate the non-NaN window `[first_nonan, last_nonan)`, transform that slice
(`analyticCore`), and write the result into an all-NaN complex output of the
length of the input.  The numpy slice assignment
`sig_hilb[first_nonan:last_nonan] = sig_hilb_nonan` is rendered as
`replicate ++ slice ++ replicate` (the slice length equals
`last_nonan - first_nonan` by the length contract of the transform, so the
assignment is exact).  When the input has no non-NaN sample, Python raises
an `IndexError` on `[0][0]`; the spec calls this `NoValidSamplesError`. -/
def hilbert_ignore_nan (H : HilbertModel) (sig : List Val)
    (hilbert_increase_n : Bool) : Except String (List CVal) :=
  match firstNonNan sig, lastNonNanSucc sig with
  | some first_nonan, some last_nonan =>
    let sig_nonan := (sig.drop first_nonan).take (last_nonan - first_nonan)
    .ok (List.replicate first_nonan none
         ++ analyticCore H sig_nonan hilbert_increase_n
         ++ List.replicate (sig.length - last_nonan) none)
  | _, _ => .error "index 0 is out of bounds for axis 0 with size 0"

/-- A concrete analytic-transform model used in witness instantiations: the
`n`-point transform is `n` copies of `1 + 0i`; it satisfies the length and
definedness contract. -/
def constHilbert : HilbertModel where
  run := fun _ n => List.replicate n (some (1, 0))
  len_run := fun _ n => by simp
  defined_run := fun _ n _ y hy => by
    rw [List.eq_of_mem_replicate hy]
    rfl

/-! ### Edge-artifact masking -/

/-- Embedding of `N_rmv = int(np.ceil(len(kernel) / 2))` for a kernel of length `K`. -/
def nRmvOf (K : ℕ) : ℕ := (K + 1) / 2

/-- Python slice assignment `x[:n] = np.nan`. -/
def pySetPrefixNan (x : List Val) (n : ℕ) : List Val :=
  List.replicate (min n x.length) none ++ x.drop n

/-- Start index of the Python slice `x[-n:]` on a list of length `len`:
for `n = 0` the slice is `x[0:]`, the WHOLE list; otherwise it starts at
`len - n` (clamped at `0` when `n > len`). -/
def pyNegSliceStart (len n : ℕ) : ℕ := if n = 0 then 0 else len - n

/-- Python slice assignment `x[-n:] = np.nan`. -/
def pySetSuffixNan (x : List Val) (n : ℕ) : List Val :=
  x.take (pyNegSliceStart x.length n)
    ++ List.replicate (x.length - pyNegSliceStart x.length n) none

/-- The edge-artifact removal step of `phase_by_time` / `amp_by_time`
(timefrequency.py lines 59-62 and 112-115):
`x[:N_rmv] = np.nan; x[-N_rmv:] = np.nan`. -/
def maskEdges (x : List Val) (nRmv : ℕ) : List Val :=
  pySetSuffixNan (pySetPrefixNan x nRmv) nRmv

/-- Masking exactly `n` samples at each end (the `EdgeMasker`
contract of the spec): position `i` is overwritten with NaN iff `i < n` or
`len - n ≤ i`, and kept otherwise. -/
def maskExact (x : List Val) (n : ℕ) : List Val :=
  List.ofFn fun i : Fin x.length =>
    if (i : ℕ) < n ∨ x.length - n ≤ (i : ℕ) then none else x.get i

/-! ### The three feature extractors -/

/-- Abstraction of `neurodsp.filt.filter_signal`, the external FIR filtering
collaborator, as called here (`remove_edge_artifacts=False`,
`return_kernel=True`): it returns the filtered signal — of the same length as
the input, per its contract — together with the FIR kernel, of which only the
length is consumed downstream. -/
structure FilterModel where
  run : List Val → ℚ → PassType → Option ℚ × Option ℚ → List Val × List ℚ
  len_run : ∀ sig fs pt fc, (run sig fs pt fc).1.length = sig.length

/-- The classification + filtering prefix shared by all three extractors
(`pass_type = _get_filt_passtype(f_range)` then `filter_signal(...)`). -/
def filtKernel (F : FilterModel) (sig : List Val) (fs : ℚ)
    (f_range : Option ℚ × Option ℚ) : Except String (List Val × List ℚ) :=
  match get_filt_passtype f_range with
  | .error e => .error e
  | .ok pass_type => .ok (F.run sig fs pass_type f_range)

/-- Embedding of `np.angle(_hilbert_ignore_nan(...))` resp. `np.abs(...)`: per-sample
extraction from the analytic signal, NaN mapped to NaN; `extract` abstracts
the defined-value case of `np.angle` / `np.abs`. -/
def extractSeries (H : HilbertModel) (extract : ℚ × ℚ → ℚ)
    (sig_filt : List Val) (inc : Bool) : Except String (List Val) :=
  match hilbert_ignore_nan H sig_filt inc with
  | .error e => .error e
  | .ok hilb => .ok (hilb.map (Option.map extract))

/-- Embedding of `phase_by_time` (timefrequency.py lines 14-64), with
`np.angle` abstracted as `angleFn`. -/
def phase_by_time (F : FilterModel) (H : HilbertModel) (angleFn : ℚ × ℚ → ℚ)
    (sig : List Val) (fs : ℚ) (f_range : Option ℚ × Option ℚ)
    (hilbert_increase_n remove_edge_artifacts : Bool) :
    Except String (List Val) :=
  match filtKernel F sig fs f_range with
  | .error e => .error e
  | .ok (sig_filt, kernel) =>
    match extractSeries H angleFn sig_filt hilbert_increase_n with
    | .error e => .error e
    | .ok pha =>
      if remove_edge_artifacts then .ok (maskEdges pha (nRmvOf kernel.length))
      else .ok pha

/-- Embedding of `amp_by_time` (timefrequency.py lines 67-117), with
`np.abs` abstracted as `magFn`. -/
def amp_by_time (F : FilterModel) (H : HilbertModel) (magFn : ℚ × ℚ → ℚ)
    (sig : List Val) (fs : ℚ) (f_range : Option ℚ × Option ℚ)
    (hilbert_increase_n remove_edge_artifacts : Bool) :
    Except String (List Val) :=
  match filtKernel F sig fs f_range with
  | .error e => .error e
  | .ok (sig_filt, kernel) =>
    match extractSeries H magFn sig_filt hilbert_increase_n with
    | .error e => .error e
    | .ok amp =>
      if remove_edge_artifacts then .ok (maskEdges amp (nRmvOf kernel.length))
      else .ok amp

/-- NaN-propagating subtraction of two possibly-NaN samples. -/
def sub? (b a : Val) : Val :=
  match b, a with
  | some b', some a' => some (b' - a')
  | _, _ => none

/-- Embedding of `np.diff(pha)`: `out[i] = pha[i+1] - pha[i]`, NaN-propagating. -/
def npDiff (x : List Val) : List Val :=
  List.zipWith sub? x.tail x

/-- Lines 159-162 of `freq_by_time`: the successive phase differences, the
wrap `phadiff[phadiff < 0] += 2π` (NaN compares false, so NaN entries are
untouched), and the conversion `i_f = fs * phadiff / (2π)`. -/
def convertDiffs (piv fs : ℚ) (pha : List Val) : List Val :=
  ((npDiff pha).map
      (Option.map fun d => if d < 0 then d + 2 * piv else d)).map
    (Option.map fun d => fs * d / (2 * piv))

/-- Lines 159-163 of `freq_by_time`: the converted differences with the NaN
prepended at index `0` (`np.insert(i_f, 0, np.nan)`). -/
def freqCore (piv fs : ℚ) (pha : List Val) : List Val :=
  none :: convertDiffs piv fs pha

/-- Embedding of `freq_by_time` (timefrequency.py lines 120-165): the phase
series (with the edge-removal flag of the caller), then differences, wrap,
conversion to Hz and the prepended NaN. -/
def freq_by_time (F : FilterModel) (H : HilbertModel) (angleFn : ℚ × ℚ → ℚ)
    (piv : ℚ) (sig : List Val) (fs : ℚ) (f_range : Option ℚ × Option ℚ)
    (hilbert_increase_n remove_edge_artifacts : Bool) :
    Except String (List Val) :=
  match phase_by_time F H angleFn sig fs f_range
      hilbert_increase_n remove_edge_artifacts with
  | .error e => .error e
  | .ok pha => .ok (freqCore piv fs pha)

/-- The order of operations that the spec claims for `freq_by_time`
(refinement target for C2): the frequency estimate is computed from the
UNMASKED output of the phase extractor; edge masking is the final step of the computation, applied
to the converted phase differences rather than to the phase series, before
the leading NaN is prepended. -/
def freq_by_time_specOrder (F : FilterModel) (H : HilbertModel)
    (angleFn : ℚ × ℚ → ℚ) (piv : ℚ) (sig : List Val) (fs : ℚ)
    (f_range : Option ℚ × Option ℚ)
    (hilbert_increase_n remove_edge_artifacts : Bool) :
    Except String (List Val) :=
  match filtKernel F sig fs f_range with
  | .error e => .error e
  | .ok (sig_filt, kernel) =>
    match extractSeries H angleFn sig_filt hilbert_increase_n with
    | .error e => .error e
    | .ok pha =>
      .ok (none ::
        (if remove_edge_artifacts then
          maskEdges (convertDiffs piv fs pha) (nRmvOf kernel.length)
        else convertDiffs piv fs pha))

/-- A concrete filtering model used in witness instantiations: the filtered
signal is the input itself and the kernel has length 3. -/
def idFilter : FilterModel where
  run := fun sig _ _ _ => (sig, [1, 1, 1])
  len_run := fun _ _ _ _ => rfl

/-- A filtering model returning an empty kernel, exhibiting the `K = 0`
behaviour of the edge-removal step. -/
def zeroKernelFilter : FilterModel where
  run := fun sig _ _ _ => (sig, [])
  len_run := fun _ _ _ _ => rfl

/-! ### The passband classifier -/

/-- Claim C1: the passband classifier: `(None, high) ↦ lowpass`,
`(low, None) ↦ highpass`, `(low, high)` with `low < high ↦ bandpass`, and
`(low, high)` with `low ≥ high` raises the `ValueError` (called `InvalidRangeError`
by the spec) instead of returning a pass type. -/
theorem c1_passtype_classification (low high : ℚ) :
    get_filt_passtype (none, some high) = .ok .lowpass ∧
    get_filt_passtype (some low, none) = .ok .highpass ∧
    (low < high → get_filt_passtype (some low, some high) = .ok .bandpass) ∧
    (high ≤ low →
      get_filt_passtype (some low, some high) =
        .error "Second cutoff frequency must be greater than first.") := by
  refine ⟨rfl, rfl, fun h => ?_, fun h => ?_⟩
  · simp [get_filt_passtype, not_le.mpr h]
  · simp [get_filt_passtype, h]

/-- Witness for C1 at the concrete ranges `(1, 2)` and `(2, 1)`. -/
theorem c1_passtype_classification_witness :
    get_filt_passtype (some 1, some 2) = .ok .bandpass ∧
    get_filt_passtype (some 2, some 1) =
      .error "Second cutoff frequency must be greater than first." :=
  ⟨(c1_passtype_classification 1 2).2.2.1 (by norm_num),
   (c1_passtype_classification 2 1).2.2.2 (by norm_num)⟩

/-- Claim C5, counterexample: with both bounds absent the classifier does NOT
fall through without a pass type: the `f_range[0] is None` branch fires first
and a pass type is assigned. -/
theorem c5_both_none_counterexample :
    ∃ p, get_filt_passtype (none, none) = .ok p :=
  ⟨.lowpass, rfl⟩

/-- Claim C5, amended: when both bounds of the frequency range are absent, the
classifier returns `lowpass`: the low-absent branch is tested first and never
inspects the high bound, so the call succeeds with a classified pass type. -/
theorem c5_both_none_lowpass :
    get_filt_passtype (none, none) = .ok .lowpass := rfl

/-! ### Lemmas about the non-NaN window finders -/

theorem firstNonNan_eq_none_iff (x : List Val) :
    firstNonNan x = none ↔ ∀ v ∈ x, v = none := by
  induction x with
  | nil => simp [firstNonNan]
  | cons a xs ih =>
    cases a with
    | none => simp [firstNonNan, ih]
    | some q => simp [firstNonNan]

theorem firstNonNan_replicate_append (p : ℕ) (ys : List Val) :
    firstNonNan (List.replicate p none ++ ys) = (firstNonNan ys).map (· + p) := by
  induction p with
  | zero => simp
  | succ k ih =>
    rw [List.replicate_succ, List.cons_append]
    show (firstNonNan (List.replicate k none ++ ys)).map (· + 1) = _
    rw [ih]
    cases firstNonNan ys with
    | none => simp
    | some j => simp; omega

theorem firstNonNan_cons_some (q : ℚ) (xs : List Val) :
    firstNonNan (some q :: xs) = some 0 := rfl

theorem firstNonNan_lt_length {x : List Val} {f : ℕ}
    (h : firstNonNan x = some f) : f < x.length := by
  induction x generalizing f with
  | nil => simp [firstNonNan] at h
  | cons a xs ih =>
    cases a with
    | none =>
      simp only [firstNonNan, Option.map_eq_some'] at h
      obtain ⟨f', hf', rfl⟩ := h
      have := ih hf'
      simp; omega
    | some q =>
      rw [firstNonNan_cons_some] at h
      cases h
      simp

theorem firstNonNan_defined_at {x : List Val} {f : ℕ}
    (h : firstNonNan x = some f) : ∃ q, x[f]? = some (some q) := by
  induction x generalizing f with
  | nil => simp [firstNonNan] at h
  | cons a xs ih =>
    cases a with
    | none =>
      simp only [firstNonNan, Option.map_eq_some'] at h
      obtain ⟨f', hf', rfl⟩ := h
      simpa using ih hf'
    | some q =>
      rw [firstNonNan_cons_some] at h
      cases h
      exact ⟨q, by simp⟩

theorem firstNonNan_leading_none {x : List Val} {f : ℕ}
    (h : firstNonNan x = some f) : ∀ i < f, x[i]? = some none := by
  induction x generalizing f with
  | nil => simp [firstNonNan] at h
  | cons a xs ih =>
    cases a with
    | none =>
      simp only [firstNonNan, Option.map_eq_some'] at h
      obtain ⟨f', hf', rfl⟩ := h
      intro i hi
      cases i with
      | zero => simp
      | succ j => simpa using ih hf' j (by omega)
    | some q =>
      rw [firstNonNan_cons_some] at h
      cases h
      intro i hi
      omega

theorem firstNonNan_of_all_some {x : List Val} (hne : x ≠ [])
    (hdef : ∀ v ∈ x, v.isSome) : firstNonNan x = some 0 := by
  cases x with
  | nil => exact absurd rfl hne
  | cons a xs =>
    have ha : a.isSome := hdef a (by simp)
    obtain ⟨q, rfl⟩ := Option.isSome_iff_exists.mp ha
    rfl

theorem lastNonNanSucc_of_all_some {x : List Val} (hne : x ≠ [])
    (hdef : ∀ v ∈ x, v.isSome) : lastNonNanSucc x = some x.length := by
  have hrev : x.reverse ≠ [] := by simpa using hne
  have hdef' : ∀ v ∈ x.reverse, v.isSome := fun v hv => hdef v (by simpa using hv)
  simp [lastNonNanSucc, firstNonNan_of_all_some hrev hdef']

/-- On a nonempty fully-defined input, `_hilbert_ignore_nan` is exactly the
core transform of the whole input. -/
theorem hilbert_ignore_nan_all_some (H : HilbertModel) {x : List Val}
    (inc : Bool) (hne : x ≠ []) (hdef : ∀ v ∈ x, v.isSome) :
    hilbert_ignore_nan H x inc = .ok (analyticCore H x inc) := by
  simp only [hilbert_ignore_nan, firstNonNan_of_all_some hne hdef,
    lastNonNanSucc_of_all_some hne hdef]
  simp [List.take_length]

/-- The valid slice length never exceeds the padded transform length
`n_components` in the `increase_n` branch. -/
theorem length_lt_two_pow_log2_succ (L : ℕ) : L < 2 ^ (Nat.log2 L + 1) := by
  rcases Nat.eq_zero_or_pos L with rfl | hL
  · exact Nat.two_pow_pos _
  · exact (Nat.log2_lt (by omega)).mp (Nat.lt_succ_self _)

theorem analyticCore_length (H : HilbertModel) (v : List Val) (inc : Bool) :
    (analyticCore H v inc).length = v.length := by
  cases inc with
  | false => simp [analyticCore, H.len_run]
  | true =>
    simp only [analyticCore, if_pos, List.length_take, H.len_run]
    exact Nat.min_eq_left (Nat.le_of_lt (length_lt_two_pow_log2_succ _))

theorem analyticCore_defined (H : HilbertModel) (v : List Val) (inc : Bool)
    (hdef : ∀ x ∈ v, x.isSome) : ∀ y ∈ analyticCore H v inc, y.isSome := by
  cases inc with
  | false => exact fun y hy => H.defined_run v _ hdef y hy
  | true =>
    intro y hy
    simp only [analyticCore, if_pos] at hy
    exact H.defined_run v _ hdef y (List.mem_of_mem_take hy)

/-- Whenever `_hilbert_ignore_nan` succeeds, the output length equals the
input length. -/
theorem hilbert_ignore_nan_length (H : HilbertModel) {sig : List Val}
    {inc : Bool} {out : List CVal}
    (h : hilbert_ignore_nan H sig inc = .ok out) : out.length = sig.length := by
  rw [hilbert_ignore_nan] at h
  cases hf : firstNonNan sig with
  | none => rw [hf] at h; cases hl : lastNonNanSucc sig <;> rw [hl] at h <;> cases h
  | some f =>
    rw [hf] at h
    cases hl : lastNonNanSucc sig with
    | none => rw [hl] at h; cases h
    | some l =>
      rw [hl] at h
      cases h
      obtain ⟨k, hk, rfl⟩ := Option.map_eq_some'.mp hl
      have hklt : k < sig.length := by
        have := firstNonNan_lt_length hk
        simpa using this
      have hfk : f ≤ sig.length - 1 - k := by
        obtain ⟨q, hq⟩ := firstNonNan_defined_at hk
        rw [List.getElem?_reverse (by simpa using hklt)] at hq
        by_contra hcon
        have := firstNonNan_leading_none hf (sig.length - 1 - k) (by omega)
        rw [this] at hq
        cases hq
      simp only [List.length_append, List.length_replicate, analyticCore_length,
        List.length_take, List.length_drop]
      omega

theorem lastNonNanSucc_eq_none_iff (x : List Val) :
    lastNonNanSucc x = none ↔ ∀ v ∈ x, v = none := by
  rw [lastNonNanSucc, Option.map_eq_none', firstNonNan_eq_none_iff]
  constructor
  · intro h v hv
    exact h v (List.mem_reverse.mpr hv)
  · intro h v hv
    exact h v (List.mem_reverse.mp hv)

/-- Claim C7: the analytic transform fails (an `IndexError` of Python on the empty
index array, called `NoValidSamplesError` by the spec) exactly when the input has no
defined sample; with at least one defined sample it returns a result. -/
theorem c7_no_valid_samples_error_iff (H : HilbertModel) (sig : List Val)
    (inc : Bool) :
    (∃ e, hilbert_ignore_nan H sig inc = .error e) ↔ ∀ v ∈ sig, v = none := by
  rcases hf : firstNonNan sig with _ | f <;> rcases hl : lastNonNanSucc sig with _ | l
  · simp only [hilbert_ignore_nan, hf, hl]
    exact iff_of_true ⟨_, rfl⟩ ((firstNonNan_eq_none_iff sig).mp hf)
  · simp only [hilbert_ignore_nan, hf, hl]
    exact iff_of_true ⟨_, rfl⟩ ((firstNonNan_eq_none_iff sig).mp hf)
  · simp only [hilbert_ignore_nan, hf, hl]
    exact iff_of_true ⟨_, rfl⟩ ((lastNonNanSucc_eq_none_iff sig).mp hl)
  · simp only [hilbert_ignore_nan, hf, hl]
    refine iff_of_false (fun ⟨e, he⟩ => by cases he) (fun hall => ?_)
    have := (firstNonNan_eq_none_iff sig).mpr hall
    rw [hf] at this
    cases this

/-- NaN placement in a padded list whose core is fully defined. -/
theorem padded_getElem_none_iff (p s : ℕ) (core : List CVal)
    (hdef : ∀ y ∈ core, y.isSome) (i : ℕ) :
    i < p + core.length + s →
    ((List.replicate p (none : CVal) ++ core ++ List.replicate s none)[i]? =
        some none ↔ (i < p ∨ p + core.length ≤ i)) := by
  intro hi
  rcases Nat.lt_or_ge i p with hip | hip
  · rw [@List.getElem?_append_left _ _ (List.replicate s none) _ (by simp; omega),
      List.getElem?_append_left (by simpa using hip)]
    simp [List.getElem?_replicate, hip]
  · rcases Nat.lt_or_ge i (p + core.length) with him | him
    · rw [@List.getElem?_append_left _ _ (List.replicate s none) _ (by simp; omega),
        List.getElem?_append_right (by simpa using hip)]
      simp only [List.length_replicate]
      rw [List.getElem?_eq_getElem (by omega)]
      have hs : core[i - p].isSome := hdef _ (List.getElem_mem (by omega))
      constructor
      · intro hcon
        rw [Option.some_inj.mp hcon] at hs
        cases hs
      · intro hcon
        omega
    · rw [@List.getElem?_append_right _ (List.replicate p none ++ core) _ _
        (by simp; omega)]
      simp only [List.length_append, List.length_replicate]
      rw [List.getElem?_replicate]
      have hlt : i - (p + core.length) < s := by omega
      simp only [hlt, if_true]
      simp
      omega

/-- When both window finders succeed, `_hilbert_ignore_nan` returns the padded
transform of the valid slice. -/
theorem hilbert_ignore_nan_eq_ok (H : HilbertModel) {sig : List Val}
    (inc : Bool) {f l : ℕ} (hf : firstNonNan sig = some f)
    (hl : lastNonNanSucc sig = some l) :
    hilbert_ignore_nan H sig inc =
      .ok (List.replicate f none
           ++ analyticCore H ((sig.drop f).take (l - f)) inc
           ++ List.replicate (sig.length - l) none) := by
  rw [hilbert_ignore_nan, hf, hl]

/-- Value of `firstNonNan` on a list starting with a nonempty fully defined block. -/
theorem firstNonNan_map_some_append (mid : List ℚ) (hmid : mid ≠ [])
    (z : List Val) : firstNonNan (mid.map some ++ z) = some 0 := by
  obtain ⟨m, rest, rfl⟩ := List.exists_cons_of_ne_nil hmid
  rw [List.map_cons, List.cons_append, firstNonNan_cons_some]

/-- Claim C4: on an input made of a NaN prefix of length `p`, a nonempty fully
defined middle `mid`, and a NaN suffix of length `s`, the analytic transform
succeeds, returns a same-length output equal to the transformed middle padded
by the original NaN prefix/suffix, and the output is NaN at exactly the prefix
and suffix positions. -/
theorem c4_hilbert_preserves_nan_padding (H : HilbertModel) (inc : Bool)
    (p s : ℕ) (mid : List ℚ) (hmid : mid ≠ []) :
    ∃ out,
      hilbert_ignore_nan H
          (List.replicate p none ++ mid.map some ++ List.replicate s none) inc =
        .ok out ∧
      out = List.replicate p none ++ analyticCore H (mid.map some) inc
              ++ List.replicate s none ∧
      out.length =
        (List.replicate p (none : Val) ++ mid.map some
          ++ List.replicate s none).length ∧
      ∀ i < out.length, (out[i]? = some none ↔ (i < p ∨ p + mid.length ≤ i)) := by
  have hlen : (List.replicate p (none : Val) ++ mid.map some
      ++ List.replicate s none).length = p + mid.length + s := by
    simp only [List.length_append, List.length_replicate, List.length_map]
  have hfirst : firstNonNan
      (List.replicate p none ++ mid.map some ++ List.replicate s none) = some p := by
    rw [List.append_assoc, firstNonNan_replicate_append,
      firstNonNan_map_some_append mid hmid]
    simp
  have hrev : (List.replicate p (none : Val) ++ mid.map some
      ++ List.replicate s none).reverse =
      List.replicate s none ++ (mid.reverse.map some ++ List.replicate p none) := by
    simp [List.reverse_append, List.append_assoc]
  have hlast : lastNonNanSucc
      (List.replicate p none ++ mid.map some ++ List.replicate s none) =
      some (p + mid.length) := by
    rw [lastNonNanSucc, hrev, firstNonNan_replicate_append,
      firstNonNan_map_some_append mid.reverse (by simpa using hmid)]
    simp only [Option.map_some', Nat.zero_add, hlen]
    congr 1
    omega
  have hslice : (((List.replicate p (none : Val) ++ mid.map some
      ++ List.replicate s none)).drop p).take (p + mid.length - p) = mid.map some := by
    rw [List.append_assoc, List.drop_left' (by simp), Nat.add_sub_cancel_left,
      List.take_left' (by simp)]
  have hs' : (List.replicate p (none : Val) ++ mid.map some
      ++ List.replicate s none).length - (p + mid.length) = s := by
    rw [hlen]; omega
  refine ⟨List.replicate p none ++ analyticCore H (mid.map some) inc
            ++ List.replicate s none, ?_, rfl, ?_, ?_⟩
  · rw [hilbert_ignore_nan_eq_ok H inc hfirst hlast, hslice, hs']
  · simp [analyticCore_length]
  · have hdefcore : ∀ y ∈ analyticCore H (mid.map some) inc, y.isSome :=
      analyticCore_defined H _ inc (by simp)
    intro i hi
    have hi' : i < p + (analyticCore H (mid.map some) inc).length + s := by
      simp only [List.length_append, List.length_replicate] at hi
      omega
    rw [padded_getElem_none_iff p s _ hdefcore i hi']
    rw [analyticCore_length]
    simp

/-- Witness for C4 at `p = 1`, `mid = [2]`, `s = 1`. -/
theorem c4_hilbert_preserves_nan_padding_witness :
    ∃ out,
      hilbert_ignore_nan constHilbert
          (List.replicate 1 none ++ [(2 : ℚ)].map some ++ List.replicate 1 none)
          false = .ok out ∧
      out = List.replicate 1 none ++ analyticCore constHilbert ([(2 : ℚ)].map some) false
              ++ List.replicate 1 none ∧
      out.length =
        (List.replicate 1 (none : Val) ++ [(2 : ℚ)].map some
          ++ List.replicate 1 none).length ∧
      ∀ i < out.length, (out[i]? = some none ↔ (i < 1 ∨ 1 + [(2 : ℚ)].length ≤ i)) :=
  c4_hilbert_preserves_nan_padding constHilbert false 1 1 [2] (by simp)

/-- Claim C8: with `increase_n`, the transform is the `M`-point transform of the
valid slice truncated to the slice length `L`, where `M = 2^(log2 L + 1)` is
the smallest power of two strictly greater than `L`. -/
theorem c8_increase_n_next_pow2 (H : HilbertModel) (v : List Val)
    (hv : 1 ≤ v.length) :
    analyticCore H v true = (H.run v (2 ^ (Nat.log2 v.length + 1))).take v.length ∧
    (analyticCore H v true).length = v.length ∧
    v.length < 2 ^ (Nat.log2 v.length + 1) ∧
    ∀ j, v.length < 2 ^ j → 2 ^ (Nat.log2 v.length + 1) ≤ 2 ^ j := by
  refine ⟨rfl, analyticCore_length H v true, length_lt_two_pow_log2_succ _, ?_⟩
  intro j hj
  have hlog : Nat.log2 v.length < j := (Nat.log2_lt (by omega)).mpr hj
  exact Nat.pow_le_pow_right (by norm_num) (by omega)

/-- Witness for C8 at a slice of length 5: `M = 8`, and `8 ≤ 2^j` for the
concrete larger power `2^3`. -/
theorem c8_increase_n_next_pow2_witness :
    (analyticCore constHilbert
        [some (1 : ℚ), some 2, some 3, some 4, some 5] true).length = 5 ∧
    (5 : ℕ) < 2 ^ (Nat.log2 5 + 1) ∧
    2 ^ (Nat.log2 5 + 1) ≤ 2 ^ 3 :=
  have h := c8_increase_n_next_pow2 constHilbert
    [some (1 : ℚ), some 2, some 3, some 4, some 5] (by simp)
  ⟨h.2.1, h.2.2.1, h.2.2.2 3 (by norm_num)⟩

theorem pySetPrefixNan_length (x : List Val) (n : ℕ) :
    (pySetPrefixNan x n).length = x.length := by
  simp only [pySetPrefixNan, List.length_append, List.length_replicate,
    List.length_drop]
  omega

theorem pyNegSliceStart_le (len n : ℕ) : pyNegSliceStart len n ≤ len := by
  unfold pyNegSliceStart
  split <;> omega

theorem pySetSuffixNan_length (x : List Val) (n : ℕ) :
    (pySetSuffixNan x n).length = x.length := by
  have := pyNegSliceStart_le x.length n
  simp only [pySetSuffixNan, List.length_append, List.length_take,
    List.length_replicate]
  omega

theorem maskEdges_length (x : List Val) (n : ℕ) :
    (maskEdges x n).length = x.length := by
  rw [maskEdges, pySetSuffixNan_length, pySetPrefixNan_length]

theorem pySetPrefixNan_getElem? (x : List Val) (n i : ℕ) :
    (pySetPrefixNan x n)[i]? =
      if i < x.length then (if i < n then some none else x[i]?) else none := by
  unfold pySetPrefixNan
  rcases Nat.lt_or_ge i (min n x.length) with h | h
  · rw [List.getElem?_append_left (by simpa using h)]
    rw [List.getElem?_replicate]
    simp only [h, if_true]
    have h1 : i < x.length := by omega
    have h2 : i < n := by omega
    simp [h1, h2]
  · rw [List.getElem?_append_right (by simpa using h)]
    simp only [List.length_replicate]
    rw [List.getElem?_drop]
    rcases Nat.lt_or_ge i x.length with hx | hx
    · have hn : n ≤ i := by omega
      have : n + (i - min n x.length) = i := by omega
      rw [this]
      simp [hx, Nat.not_lt.mpr hn]
    · have : x.length ≤ n + (i - min n x.length) := by omega
      rw [List.getElem?_eq_none this]
      simp [Nat.not_lt.mpr hx]

theorem pySetSuffixNan_getElem? (x : List Val) (n i : ℕ) :
    (pySetSuffixNan x n)[i]? =
      if i < x.length then
        (if pyNegSliceStart x.length n ≤ i then some none else x[i]?)
      else none := by
  unfold pySetSuffixNan
  have hstart := pyNegSliceStart_le x.length n
  rcases Nat.lt_or_ge i (pyNegSliceStart x.length n) with h | h
  · rw [List.getElem?_append_left (by simp; omega)]
    rw [List.getElem?_take_of_lt h]
    have h1 : i < x.length := by omega
    simp [h1, Nat.not_le.mpr h]
  · rw [List.getElem?_append_right (by simp; omega)]
    simp only [List.length_take]
    rw [List.getElem?_replicate]
    rcases Nat.lt_or_ge i x.length with hx | hx
    · have : i - min (pyNegSliceStart x.length n) x.length
          < x.length - pyNegSliceStart x.length n := by omega
      simp [this, hx, h]
    · have : ¬ (i - min (pyNegSliceStart x.length n) x.length
          < x.length - pyNegSliceStart x.length n) := by omega
      simp [this, Nat.not_lt.mpr hx]

theorem maskEdges_getElem? (x : List Val) (n i : ℕ) :
    (maskEdges x n)[i]? =
      if i < x.length then
        (if i < n ∨ pyNegSliceStart x.length n ≤ i then some none else x[i]?)
      else none := by
  rw [maskEdges, pySetSuffixNan_getElem?, pySetPrefixNan_length,
    pySetPrefixNan_getElem?]
  rcases Nat.lt_or_ge i x.length with hx | hx
  · simp only [hx, if_true]
    rcases Nat.lt_or_ge i n with hn | hn
    · simp [hn]
    · simp only [Nat.not_lt.mpr hn, if_false, false_or]
  · simp [Nat.not_lt.mpr hx]

theorem maskExact_getElem? (x : List Val) (n i : ℕ) :
    (maskExact x n)[i]? =
      if h : i < x.length then
        some (if i < n ∨ x.length - n ≤ i then none else x.get ⟨i, h⟩)
      else none := by
  rw [maskExact, List.getElem?_ofFn]
  unfold List.ofFnNthVal
  split <;> rfl

/-- Claim C10: with a kernel of length `0` (so `N_rmv = 0`) the trailing slice
`x[-0:]` is the whole series: the edge-removal step overwrites EVERY sample
with NaN instead of masking zero trailing samples.  Masking exactly `N_rmv`
samples at each end is recovered precisely under the precondition `K ≥ 1`. -/
theorem c10_zero_kernel_masks_everything (x : List Val) :
    maskEdges x (nRmvOf 0) = List.replicate x.length none ∧
    ∀ K, 1 ≤ K → maskEdges x (nRmvOf K) = maskExact x (nRmvOf K) := by
  constructor
  · have h0 : nRmvOf 0 = 0 := rfl
    rw [h0]
    apply List.ext_getElem?
    intro i
    rw [maskEdges_getElem?, List.getElem?_replicate]
    unfold pyNegSliceStart
    rcases Nat.lt_or_ge i x.length with hx | hx
    · simp [hx]
    · simp [Nat.not_lt.mpr hx]
  · intro K hK
    have hpos : 1 ≤ nRmvOf K := by unfold nRmvOf; omega
    apply List.ext_getElem?
    intro i
    rw [maskEdges_getElem?, maskExact_getElem?]
    rcases Nat.lt_or_ge i x.length with hx | hx
    · have hstart : pyNegSliceStart x.length (nRmvOf K) = x.length - nRmvOf K := by
        unfold pyNegSliceStart
        rw [if_neg (by omega)]
      rw [hstart, dif_pos hx, if_pos hx]
      split
      · rfl
      · rw [List.getElem?_eq_getElem hx]
        rfl
    · rw [dif_neg (Nat.not_lt.mpr hx), if_neg (Nat.not_lt.mpr hx)]

/-- Witness for C10 on the concrete series `[1, 2, 3]` with `K = 0` and
`K = 1`. -/
theorem c10_zero_kernel_masks_everything_witness :
    maskEdges [some (1 : ℚ), some 2, some 3] (nRmvOf 0) =
      List.replicate 3 none ∧
    maskEdges [some (1 : ℚ), some 2, some 3] (nRmvOf 1) =
      maskExact [some (1 : ℚ), some 2, some 3] (nRmvOf 1) :=
  ⟨(c10_zero_kernel_masks_everything [some 1, some 2, some 3]).1,
   (c10_zero_kernel_masks_everything [some 1, some 2, some 3]).2 1 (le_refl 1)⟩

theorem npDiff_length (x : List Val) : (npDiff x).length = x.length - 1 := by
  rw [npDiff, List.length_zipWith, List.length_tail]
  omega

theorem convertDiffs_length (piv fs : ℚ) (pha : List Val) :
    (convertDiffs piv fs pha).length = pha.length - 1 := by
  rw [convertDiffs, List.length_map, List.length_map, npDiff_length]

theorem sub?_none_left (a : Val) : sub? none a = none := rfl

theorem sub?_none_right (b : Val) : sub? b none = none := by
  cases b <;> rfl

theorem npDiff_getElem? (x : List Val) (i : ℕ) :
    (npDiff x)[i]? = x[i + 1]?.bind fun b => x[i]?.map (sub? b) := by
  rw [npDiff, List.getElem?_zipWith, List.getElem?_tail]
  cases x[i + 1]? <;> cases x[i]? <;> rfl

theorem convertDiffs_getElem? (piv fs : ℚ) (pha : List Val) (i : ℕ) :
    (convertDiffs piv fs pha)[i]? =
      ((npDiff pha)[i]?).map (Option.map fun d =>
        fs * (if d < 0 then d + 2 * piv else d) / (2 * piv)) := by
  rw [convertDiffs, List.getElem?_map, List.getElem?_map]
  cases (npDiff pha)[i]? with
  | none => rfl
  | some v => cases v <;> rfl

/-- Differencing then converting commutes with the edge mask: masking the
phase series first (the code) and masking the converted differences last (the
description of the spec) give the same series, including the degenerate `n = 0`
whole-array slice and the overlapping large-`n` cases. -/
theorem convertDiffs_maskEdges_comm (piv fs : ℚ) (pha : List Val) (n : ℕ) :
    convertDiffs piv fs (maskEdges pha n) =
      maskEdges (convertDiffs piv fs pha) n := by
  have hCR : ∀ i : ℕ,
      (i < n ∨ pyNegSliceStart (pha.length - 1) n ≤ i) ↔
      ((i + 1 < n ∨ pyNegSliceStart pha.length n ≤ i + 1) ∨
       (i < n ∨ pyNegSliceStart pha.length n ≤ i)) := by
    intro i
    unfold pyNegSliceStart
    split_ifs <;> omega
  apply List.ext_getElem?
  intro i
  rw [convertDiffs_getElem? piv fs (maskEdges pha n) i,
    npDiff_getElem? (maskEdges pha n) i,
    maskEdges_getElem? pha n (i + 1), maskEdges_getElem? pha n i,
    maskEdges_getElem? (convertDiffs piv fs pha) n i,
    convertDiffs_length piv fs pha,
    convertDiffs_getElem? piv fs pha i, npDiff_getElem? pha i]
  by_cases hi1 : i + 1 < pha.length
  · have hi0 : i < pha.length := by omega
    have hi' : i < pha.length - 1 := by omega
    rw [if_pos hi1, if_pos hi0, if_pos hi']
    obtain ⟨b, hb⟩ : ∃ b, pha[i + 1]? = some b :=
      ⟨pha[i + 1], List.getElem?_eq_getElem hi1⟩
    obtain ⟨a, ha⟩ : ∃ a, pha[i]? = some a :=
      ⟨pha[i], List.getElem?_eq_getElem hi0⟩
    rw [hb, ha]
    by_cases h1 : i + 1 < n ∨ pyNegSliceStart pha.length n ≤ i + 1 <;>
      by_cases h0 : i < n ∨ pyNegSliceStart pha.length n ≤ i
    · rw [if_pos h1, if_pos h0, if_pos ((hCR i).mpr (Or.inl h1))]
      rfl
    · rw [if_pos h1, if_neg h0, if_pos ((hCR i).mpr (Or.inl h1))]
      rfl
    · rw [if_neg h1, if_pos h0, if_pos ((hCR i).mpr (Or.inr h0))]
      cases b <;> rfl
    · rw [if_neg h1, if_neg h0, if_neg (fun hcr => by
        rcases (hCR i).mp hcr with h | h
        · exact h1 h
        · exact h0 h)]
  · rw [if_neg hi1, if_neg (show ¬ i < pha.length - 1 by omega)]
    rfl

/-- Claim C2: the function `freq_by_time` as implemented (phase masked inside
`phase_by_time`, then differenced) and as the spec describes it (differences
of the unmasked phase, converted, with edge masking as the final step applied
to the differences, before the leading NaN is prepended) produce identical
output on every input: the account of the computation in the spec is extensionally
faithful. -/
theorem c2_freq_masking_order_equiv (F : FilterModel) (H : HilbertModel)
    (angleFn : ℚ × ℚ → ℚ) (piv : ℚ) (sig : List Val) (fs : ℚ)
    (f_range : Option ℚ × Option ℚ) (inc rm : Bool) :
    freq_by_time F H angleFn piv sig fs f_range inc rm =
      freq_by_time_specOrder F H angleFn piv sig fs f_range inc rm := by
  cases hpt : filtKernel F sig fs f_range with
  | error e =>
    unfold freq_by_time phase_by_time freq_by_time_specOrder
    rw [hpt]
  | ok sk =>
    obtain ⟨sf, kernel⟩ := sk
    have h1 : phase_by_time F H angleFn sig fs f_range inc rm =
        match extractSeries H angleFn sf inc with
        | .error e => .error e
        | .ok pha =>
          if rm then .ok (maskEdges pha (nRmvOf kernel.length)) else .ok pha := by
      unfold phase_by_time
      rw [hpt]
    have h2 : freq_by_time_specOrder F H angleFn piv sig fs f_range inc rm =
        match extractSeries H angleFn sf inc with
        | .error e => .error e
        | .ok pha =>
          .ok (none ::
            (if rm then maskEdges (convertDiffs piv fs pha) (nRmvOf kernel.length)
            else convertDiffs piv fs pha)) := by
      unfold freq_by_time_specOrder
      rw [hpt]
    cases hex : extractSeries H angleFn sf inc with
    | error e =>
      rw [hex] at h1 h2
      rw [h2]
      unfold freq_by_time
      rw [h1]
    | ok pha =>
      rw [hex] at h1 h2
      rw [h2]
      unfold freq_by_time
      rw [h1]
      cases rm with
      | false => rfl
      | true =>
        show (Except.ok (freqCore piv fs (maskEdges pha (nRmvOf kernel.length)))
            : Except String (List Val)) = Except.ok
              (none :: maskEdges (convertDiffs piv fs pha) (nRmvOf kernel.length))
        rw [freqCore, convertDiffs_maskEdges_comm]

/-! ### Facts about the composed pipelines -/

theorem filtKernel_ok_length {F : FilterModel} {sig : List Val} {fs : ℚ}
    {f_range : Option ℚ × Option ℚ} {sf : List Val} {kernel : List ℚ}
    (h : filtKernel F sig fs f_range = .ok (sf, kernel)) :
    sf.length = sig.length := by
  unfold filtKernel at h
  cases hpt : get_filt_passtype f_range with
  | error e => rw [hpt] at h; cases h
  | ok pt =>
    rw [hpt] at h
    injection h with h'
    have := F.len_run sig fs pt f_range
    rw [h'] at this
    exact this

theorem hilbert_ignore_nan_ok_pos {H : HilbertModel} {sig : List Val}
    {inc : Bool} {out : List CVal}
    (h : hilbert_ignore_nan H sig inc = .ok out) : 1 ≤ sig.length := by
  rw [hilbert_ignore_nan] at h
  cases hf : firstNonNan sig with
  | none =>
    rw [hf] at h
    cases hl : lastNonNanSucc sig <;> rw [hl] at h <;> cases h
  | some f =>
    have := firstNonNan_lt_length hf
    omega

theorem extractSeries_ok_length {H : HilbertModel} {extract : ℚ × ℚ → ℚ}
    {sig_filt : List Val} {inc : Bool} {pha : List Val}
    (h : extractSeries H extract sig_filt inc = .ok pha) :
    pha.length = sig_filt.length ∧ 1 ≤ sig_filt.length := by
  unfold extractSeries at h
  cases hh : hilbert_ignore_nan H sig_filt inc with
  | error e => rw [hh] at h; cases h
  | ok hilb =>
    rw [hh] at h
    injection h with h'
    refine ⟨?_, hilbert_ignore_nan_ok_pos hh⟩
    rw [← h', List.length_map]
    exact hilbert_ignore_nan_length H hh

theorem phase_by_time_ok_length {F : FilterModel} {H : HilbertModel}
    {angleFn : ℚ × ℚ → ℚ} {sig : List Val} {fs : ℚ}
    {f_range : Option ℚ × Option ℚ} {inc rm : Bool} {pha : List Val}
    (h : phase_by_time F H angleFn sig fs f_range inc rm = .ok pha) :
    pha.length = sig.length ∧ 1 ≤ sig.length := by
  unfold phase_by_time at h
  cases hfk : filtKernel F sig fs f_range with
  | error e => rw [hfk] at h; cases h
  | ok sk =>
    obtain ⟨sf, kernel⟩ := sk
    rw [hfk] at h
    have h' : (match extractSeries H angleFn sf inc with
        | .error e => (.error e : Except String (List Val))
        | .ok ph =>
          if rm then .ok (maskEdges ph (nRmvOf kernel.length)) else .ok ph)
        = .ok pha := h
    cases hex : extractSeries H angleFn sf inc with
    | error e => rw [hex] at h'; cases h'
    | ok ph =>
      rw [hex] at h'
      obtain ⟨hph, hpos⟩ := extractSeries_ok_length hex
      have hsig := filtKernel_ok_length hfk
      cases rm with
      | false =>
        injection h' with h''
        subst h''
        constructor <;> omega
      | true =>
        injection h' with h''
        subst h''
        rw [maskEdges_length]
        constructor <;> omega

/-- Claim C9: whenever `freq_by_time` returns, the output has the length of the input and its value at index `0` is the prepended NaN, for either setting of
`remove_edge_artifacts`. -/
theorem c9_freq_length_and_leading_nan (F : FilterModel) (H : HilbertModel)
    (angleFn : ℚ × ℚ → ℚ) (piv : ℚ) (sig : List Val) (fs : ℚ)
    (f_range : Option ℚ × Option ℚ) (inc rm : Bool) (out : List Val)
    (h : freq_by_time F H angleFn piv sig fs f_range inc rm = .ok out) :
    out.length = sig.length ∧ out[0]? = some none := by
  unfold freq_by_time at h
  cases hp : phase_by_time F H angleFn sig fs f_range inc rm with
  | error e => rw [hp] at h; cases h
  | ok pha =>
    rw [hp] at h
    injection h with h'
    obtain ⟨h1, h2⟩ := phase_by_time_ok_length hp
    subst h'
    constructor
    · rw [freqCore]
      simp only [List.length_cons, convertDiffs_length]
      omega
    · rw [freqCore]
      simp

/-- Witness for C9: a full evaluation of the pipeline on `[1, 2]` with a
lowpass range. -/
theorem c9_freq_length_and_leading_nan_witness :
    ([none, none] : List Val).length = [some (1 : ℚ), some 2].length ∧
    ([none, none] : List Val)[0]? = some none :=
  c9_freq_length_and_leading_nan idFilter constHilbert (fun _ => 0) 4
    [some 1, some 2] 1 (none, some 1) false true [none, none] rfl

/-- On a fully defined series, the edge-removal step with `n ≥ 1` produces
NaN at exactly the first `n` and last `n` positions. -/
theorem maskEdges_all_some_placement (x : List Val) (n : ℕ) (hn : 1 ≤ n)
    (hdef : ∀ v ∈ x, v.isSome) :
    ∀ i < x.length,
      ((maskEdges x n)[i]? = some none ↔ (i < n ∨ x.length - n ≤ i)) := by
  intro i hi
  rw [maskEdges_getElem?, if_pos hi]
  have hstart : pyNegSliceStart x.length n = x.length - n := by
    unfold pyNegSliceStart
    rw [if_neg (by omega)]
  rw [hstart]
  split_ifs with hc
  · exact iff_of_true rfl hc
  · rw [List.getElem?_eq_getElem hi]
    have hs := hdef _ (List.getElem_mem hi)
    constructor
    · intro hcon
      rw [Option.some_inj.mp hcon] at hs
      cases hs
    · intro hcon
      exact absurd hcon hc

/-- When classification and filtering succeed and the filtered signal is
nonempty and fully defined, `phase_by_time` with edge removal is exactly the
masked angle of the core transform. -/
theorem phase_by_time_eq_of_filt {F : FilterModel} (H : HilbertModel)
    (angleFn : ℚ × ℚ → ℚ) {sig : List Val} {fs : ℚ}
    {f_range : Option ℚ × Option ℚ} {sf : List Val} {kernel : List ℚ}
    (hfk : filtKernel F sig fs f_range = .ok (sf, kernel)) (inc : Bool)
    (hne : sf ≠ []) (hdef : ∀ v ∈ sf, v.isSome) :
    phase_by_time F H angleFn sig fs f_range inc true =
      .ok (maskEdges ((analyticCore H sf inc).map (Option.map angleFn))
        (nRmvOf kernel.length)) := by
  have hex : extractSeries H angleFn sf inc =
      .ok ((analyticCore H sf inc).map (Option.map angleFn)) := by
    unfold extractSeries
    rw [hilbert_ignore_nan_all_some H inc hne hdef]
  unfold phase_by_time
  rw [hfk]
  show (match extractSeries H angleFn sf inc with
    | .error e => (.error e : Except String (List Val))
    | .ok pha => .ok (maskEdges pha (nRmvOf kernel.length))) = _
  rw [hex]

/-- Analogue of `phase_by_time_eq_of_filt` for `amp_by_time`. -/
theorem amp_by_time_eq_of_filt {F : FilterModel} (H : HilbertModel)
    (magFn : ℚ × ℚ → ℚ) {sig : List Val} {fs : ℚ}
    {f_range : Option ℚ × Option ℚ} {sf : List Val} {kernel : List ℚ}
    (hfk : filtKernel F sig fs f_range = .ok (sf, kernel)) (inc : Bool)
    (hne : sf ≠ []) (hdef : ∀ v ∈ sf, v.isSome) :
    amp_by_time F H magFn sig fs f_range inc true =
      .ok (maskEdges ((analyticCore H sf inc).map (Option.map magFn))
        (nRmvOf kernel.length)) := by
  have hex : extractSeries H magFn sf inc =
      .ok ((analyticCore H sf inc).map (Option.map magFn)) := by
    unfold extractSeries
    rw [hilbert_ignore_nan_all_some H inc hne hdef]
  unfold amp_by_time
  rw [hfk]
  show (match extractSeries H magFn sf inc with
    | .error e => (.error e : Except String (List Val))
    | .ok amp => .ok (maskEdges amp (nRmvOf kernel.length))) = _
  rw [hex]

/-- Claim C3, counterexample: with a kernel of length `0` (so
`N_rmv = ceil(0/2) = 0`) and a fully defined filtered signal of length 3, the
claim predicts NO NaN positions, but `phase_by_time` returns an all-NaN
series: position 1, which the claim says is finite, is NaN. -/
theorem c3_counterexample :
    phase_by_time zeroKernelFilter constHilbert (fun _ => 0)
        [some (1 : ℚ), some 2, some 3] 1 (none, some 1) false true =
      .ok [none, none, none] ∧
    ¬ ((1 : ℕ) < nRmvOf 0 ∨ 3 - nRmvOf 0 ≤ 1) :=
  ⟨rfl, by decide⟩

/-- Claim C3, amended with the precondition of kernel length `K ≥ 1`: for a nonempty fully defined
filtered signal, with `remove_edge_artifacts` and a kernel of length `K ≥ 1`,
phase and amplitude outputs have the length of the input and are NaN at exactly
the first `ceil(K/2)` and last `ceil(K/2)` positions (every other position
carries a defined value). -/
theorem c3_edge_nan_placement (F : FilterModel) (H : HilbertModel)
    (angleFn magFn : ℚ × ℚ → ℚ) (sig : List Val) (fs : ℚ)
    (f_range : Option ℚ × Option ℚ) (inc : Bool) (sf : List Val)
    (kernel : List ℚ)
    (hfk : filtKernel F sig fs f_range = .ok (sf, kernel))
    (hne : sf ≠ []) (hdef : ∀ v ∈ sf, v.isSome) (hK : 1 ≤ kernel.length) :
    ∃ pha amp,
      phase_by_time F H angleFn sig fs f_range inc true = .ok pha ∧
      amp_by_time F H magFn sig fs f_range inc true = .ok amp ∧
      pha.length = sig.length ∧ amp.length = sig.length ∧
      (∀ i < sig.length,
        (pha[i]? = some none ↔
          i < nRmvOf kernel.length ∨ sig.length - nRmvOf kernel.length ≤ i)) ∧
      (∀ i < sig.length,
        (amp[i]? = some none ↔
          i < nRmvOf kernel.length ∨ sig.length - nRmvOf kernel.length ≤ i)) := by
  have hsig := filtKernel_ok_length hfk
  have hnR : 1 ≤ nRmvOf kernel.length := by
    unfold nRmvOf
    omega
  have hplace : ∀ fn : ℚ × ℚ → ℚ, ∀ i < sig.length,
      ((maskEdges ((analyticCore H sf inc).map (Option.map fn))
          (nRmvOf kernel.length))[i]? = some none ↔
        i < nRmvOf kernel.length ∨ sig.length - nRmvOf kernel.length ≤ i) := by
    intro fn
    have hbase : ∀ v ∈ (analyticCore H sf inc).map (Option.map fn), v.isSome := by
      intro v hv
      obtain ⟨y, hy, rfl⟩ := List.mem_map.mp hv
      have hy' := analyticCore_defined H sf inc hdef y hy
      cases y with
      | none => cases hy'
      | some q => rfl
    have hblen : ((analyticCore H sf inc).map (Option.map fn)).length
        = sig.length := by
      rw [List.length_map, analyticCore_length, hsig]
    intro i hi
    have := maskEdges_all_some_placement _ (nRmvOf kernel.length) hnR hbase i
      (by rw [hblen]; exact hi)
    rw [hblen] at this
    exact this
  have hmlen : ∀ fn : ℚ × ℚ → ℚ,
      (maskEdges ((analyticCore H sf inc).map (Option.map fn))
        (nRmvOf kernel.length)).length = sig.length := by
    intro fn
    rw [maskEdges_length, List.length_map, analyticCore_length, hsig]
  exact ⟨_, _, phase_by_time_eq_of_filt H angleFn hfk inc hne hdef,
    amp_by_time_eq_of_filt H magFn hfk inc hne hdef,
    hmlen angleFn, hmlen magFn, hplace angleFn, hplace magFn⟩

/-- Witness for C3 on the 5-sample signal `[1, 2, 3, 4, 5]` with the identity
filter (kernel length 3, `N_rmv = 2`). -/
theorem c3_edge_nan_placement_witness :
    ∃ pha amp,
      phase_by_time idFilter constHilbert (fun _ => 0)
          [some (1 : ℚ), some 2, some 3, some 4, some 5] 1 (none, some 1)
          false true = .ok pha ∧
      amp_by_time idFilter constHilbert (fun _ => 1)
          [some (1 : ℚ), some 2, some 3, some 4, some 5] 1 (none, some 1)
          false true = .ok amp ∧
      pha.length = [some (1 : ℚ), some 2, some 3, some 4, some 5].length ∧
      amp.length = [some (1 : ℚ), some 2, some 3, some 4, some 5].length ∧
      (∀ i < [some (1 : ℚ), some 2, some 3, some 4, some 5].length,
        (pha[i]? = some none ↔
          i < nRmvOf ([(1 : ℚ), 1, 1].length) ∨
          [some (1 : ℚ), some 2, some 3, some 4, some 5].length
            - nRmvOf ([(1 : ℚ), 1, 1].length) ≤ i)) ∧
      (∀ i < [some (1 : ℚ), some 2, some 3, some 4, some 5].length,
        (amp[i]? = some none ↔
          i < nRmvOf ([(1 : ℚ), 1, 1].length) ∨
          [some (1 : ℚ), some 2, some 3, some 4, some 5].length
            - nRmvOf ([(1 : ℚ), 1, 1].length) ≤ i)) :=
  c3_edge_nan_placement idFilter constHilbert (fun _ => 0) (fun _ => 1)
    [some 1, some 2, some 3, some 4, some 5] 1 (none, some 1) false
    [some 1, some 2, some 3, some 4, some 5] [1, 1, 1] rfl
    (by simp) (by decide) (by decide)

/-- Claim C6: every defined output of the frequency computation is
non-negative: with phase values in `(-π, π]` (here the abstract positive
constant `piv` standing for `np.pi`) and a non-negative sampling rate, each
phase difference lies in `(-2π, 2π)`, negative differences are wrapped into
`[0, 2π)` by adding `2π`, and the conversion `fs·Δφ/(2π)` preserves
non-negativity. -/
theorem c6_freq_values_nonneg (piv fs : ℚ) (pha : List Val)
    (hpi : 0 < piv) (hfs : 0 ≤ fs)
    (hbound : ∀ x ∈ pha, ∀ v : ℚ, x = some v → -piv < v ∧ v ≤ piv) :
    ∀ y ∈ freqCore piv fs pha, ∀ w : ℚ, y = some w → 0 ≤ w := by
  intro y hy w hw
  rcases List.mem_cons.mp hy with rfl | hy'
  · cases hw
  · obtain ⟨i, hilt, hieq⟩ := List.getElem_of_mem hy'
    have hq : (convertDiffs piv fs pha)[i]? = some y :=
      hieq ▸ List.getElem?_eq_getElem hilt
    rw [convertDiffs_getElem? piv fs pha i, npDiff_getElem? pha i] at hq
    cases hb : pha[i + 1]? with
    | none => rw [hb] at hq; cases hq
    | some b =>
      cases ha : pha[i]? with
      | none => rw [hb, ha] at hq; cases hq
      | some a =>
        rw [hb, ha] at hq
        cases b with
        | none => cases hw ▸ (Option.some_inj.mp hq).symm
        | some b' =>
          cases a with
          | none => cases hw ▸ (Option.some_inj.mp hq).symm
          | some a' =>
            have hy2 : y = some (fs * (if b' - a' < 0 then b' - a' + 2 * piv
                else b' - a') / (2 * piv)) := (Option.some_inj.mp hq).symm
            rw [hw] at hy2
            have hw2 := Option.some_inj.mp hy2
            have hab : -piv < a' ∧ a' ≤ piv :=
              hbound _ (List.getElem?_mem ha) a' rfl
            have hbb : -piv < b' ∧ b' ≤ piv :=
              hbound _ (List.getElem?_mem hb) b' rfl
            have hd : 0 ≤ (if b' - a' < 0 then b' - a' + 2 * piv
                else b' - a') := by
              split_ifs with hneg
              · linarith [hab.2, hbb.1]
              · linarith [not_lt.mp hneg]
            have h2piv : (0 : ℚ) < 2 * piv := by linarith
            rw [hw2]
            exact div_nonneg (mul_nonneg hfs hd) (le_of_lt h2piv)

/-- Witness for C6 with `π ↦ 4`, `fs = 1` and phases `0, 2`, whose converted
difference is `1·2/(2·4)`. -/
theorem c6_freq_values_nonneg_witness : (0 : ℚ) ≤ 1 * 2 / (2 * 4) :=
  c6_freq_values_nonneg 4 1 [some 0, some 2] (by norm_num) (by norm_num)
    (by
      intro x hx v hv
      rcases List.mem_cons.mp hx with rfl | hx'
      · have h0 := Option.some_inj.mp hv
        constructor <;> rw [← h0] <;> norm_num
      · rcases List.mem_cons.mp hx' with rfl | hx''
        · have h0 := Option.some_inj.mp hv
          constructor <;> rw [← h0] <;> norm_num
        · simp at hx'')
    (some (1 * 2 / (2 * 4))) (by
      show some (1 * 2 / (2 * 4) : ℚ) ∈ freqCore 4 1 [some 0, some 2]
      norm_num [freqCore, convertDiffs, npDiff, sub?]) (1 * 2 / (2 * 4)) rfl

end NeuroDSP
